import Mathlib

set_option maxHeartbeats 1000000

/-!
Verification of the drawer repository (src/main.rs, src/geometrical_shapes.rs).

Shallow embedding conventions:
- Rust i32 coordinates are modelled as Int (the idealised integer semantics; the
  program's drawing arithmetic is overflow-free for all canvas-scale inputs).
- The canvas (raster Image) is a record of width, height and a pixel map.
- The vendored rand capability gen_range(lo..hi) is modelled by a seeded sampler
  whose contract is "result in the half-open range lo..hi"; each call site of the
  program passes its own seed.
- Rust loops are embedded either as fuel-indexed structural recursions (Bresenham
  line loop, with a proved completion flag) or with a fuel that provably dominates
  the iteration count (midpoint circle loop: each iteration increases y by 1 and
  never increases x, so at most x - y + 1 iterations run; the fuel r.toNat + 2
  strictly exceeds that bound for the initial state x = r, y = 0).
-/

/-- Point from geometrical_shapes.rs: integer 2D coordinate. -/
structure Point where
  x : Int
  y : Int
deriving DecidableEq, Repr

/-- Color from the raster capability: four channels, 8-bit in the source. -/
structure Color where
  r : Int
  g : Int
  b : Int
  a : Int
deriving DecidableEq, Repr

/-- Image from the raster capability: dimensions and pixel buffer. -/
structure Image where
  width : Int
  height : Int
  pixels : Int → Int → Color

/-- raster set_pixel: writes one pixel of the buffer. -/
def Image.setPixel (img : Image) (x y : Int) (c : Color) : Image :=
  { img with pixels := fun a b => if a = x ∧ b = y then c else img.pixels a b }

/-- impl Displayable for Image (main.rs lines 50-56): bounds-checked pixel write,
silently dropping out-of-bounds writes. -/
def Image.display (img : Image) (x y : Int) (c : Color) : Image :=
  if 0 ≤ x ∧ x < img.width ∧ 0 ≤ y ∧ y < img.height then
    img.setPixel x y c
  else
    img

/-- Image::blank(w, h) from the raster capability: a fresh white canvas. -/
def Image.blank (w h : Int) : Image :=
  { width := w, height := h, pixels := fun _ _ => ⟨255, 255, 255, 255⟩ }

/-- Model of the vendored rand contract for rng.gen_range(lo..hi): a seeded
sampler that always lands in the half-open range lo..hi (for lo < hi). -/
def genRange (lo hi seed : Int) : Int := lo + seed % (hi - lo)

/-- Point::color (geometrical_shapes.rs lines 38-46): three gen_range(0..255)
samples for r, g, b and the constant 255 for a. One seed per gen_range call. -/
def Point.color (s1 s2 s3 : Int) : Color :=
  { r := genRange 0 255 s1, g := genRange 0 255 s2, b := genRange 0 255 s3, a := 255 }

/-- Line::color (geometrical_shapes.rs lines 104-112): identical body to
Point::color (as are the color impls of every other shape in the file). -/
def Line.color (s1 s2 s3 : Int) : Color :=
  { r := genRange 0 255 s1, g := genRange 0 255 s2, b := genRange 0 255 s3, a := 255 }

/-- Rectangle::draw (geometrical_shapes.rs lines 308-316): the four Line draw
calls, as (start, end) endpoint pairs, in source order. -/
def rectLines (tl br : Point) : List (Point × Point) :=
  let topRight : Point := ⟨br.x, tl.y⟩
  let bottomLeft : Point := ⟨tl.x, br.y⟩
  [(tl, topRight), (topRight, br), (br, bottomLeft), (bottomLeft, tl)]

/-- Cube::draw (geometrical_shapes.rs lines 205-240): the eight corner points in
source order ftl, ftr, fbl, fbr, btl, btr, bbl, bbr. The source computes
depth = (size as f64 * depth_factor) as i32; depth enters here as that integer. -/
def cubeCorners (ftl : Point) (size depth : Int) : List Point :=
  [⟨ftl.x, ftl.y⟩,
   ⟨ftl.x + size, ftl.y⟩,
   ⟨ftl.x, ftl.y + size⟩,
   ⟨ftl.x + size, ftl.y + size⟩,
   ⟨ftl.x + depth, ftl.y - depth⟩,
   ⟨ftl.x + size + depth, ftl.y - depth⟩,
   ⟨ftl.x + depth, ftl.y + size - depth⟩,
   ⟨ftl.x + size + depth, ftl.y + size - depth⟩]

/-- Cube::draw: the twelve Line draw calls, as endpoint pairs, in source order:
front face, back face, then the four connecting edges. -/
def cubeLines (ftl : Point) (size depth : Int) : List (Point × Point) :=
  let ftlp : Point := ⟨ftl.x, ftl.y⟩
  let ftr : Point := ⟨ftl.x + size, ftl.y⟩
  let fbl : Point := ⟨ftl.x, ftl.y + size⟩
  let fbr : Point := ⟨ftl.x + size, ftl.y + size⟩
  let btl : Point := ⟨ftl.x + depth, ftl.y - depth⟩
  let btr : Point := ⟨ftr.x + depth, ftr.y - depth⟩
  let bbl : Point := ⟨fbl.x + depth, fbl.y - depth⟩
  let bbr : Point := ⟨fbr.x + depth, fbr.y - depth⟩
  [(ftlp, ftr), (ftr, fbr), (fbr, fbl), (fbl, ftlp),
   (btl, btr), (btr, bbr), (bbr, bbl), (bbl, btl),
   (ftlp, btl), (ftr, btr), (fbl, bbl), (fbr, bbr)]

/-- Circle::draw (geometrical_shapes.rs lines 356-381): the midpoint loop.
State (x, y, err); while x >= y, plot the eight symmetric points in source
order, then y += 1; if err <= 0 then err += 2*y + 1; if err > 0 then
x -= 1 and err -= 2*x + 1 (with x already decremented). The fuel dominates
the iteration count (see the file header). -/
def circleLoopF : Nat → Int → Int → Int → Int → Int → List (Int × Int)
  | 0, _, _, _, _, _ => []
  | n + 1, cx, cy, x, y, err =>
    if y ≤ x then
      let pts : List (Int × Int) :=
        [(cx + x, cy + y), (cx + y, cy + x), (cx - y, cy + x), (cx - x, cy + y),
         (cx - x, cy - y), (cx - y, cy - x), (cx + y, cy - x), (cx + x, cy - y)]
      let y2 := y + 1
      let err1 := if err ≤ 0 then err + 2 * y2 + 1 else err
      if 0 < err1 then
        pts ++ circleLoopF n cx cy (x - 1) y2 (err1 - (2 * (x - 1) + 1))
      else
        pts ++ circleLoopF n cx cy x y2 err1
    else []

/-- The display-call sequence of Circle::draw for a circle with the given
center and radius: the loop starts at x = radius, y = 0, err = 0. -/
def circlePixels (c : Point) (r : Int) : List (Int × Int) :=
  circleLoopF (r.toNat + 2) c.x c.y r 0 0

/-- Circle::draw acting on a canvas: every plotted point goes through display.
The color is sampled once before the loop in the source; it is a parameter here. -/
def Circle.drawImage (img : Image) (c : Point) (r : Int) (col : Color) : Image :=
  (circlePixels c r).foldl (fun im p => im.display p.1 p.2 col) img

/-- One drawing command of the composition script in main.rs. -/
inductive Cmd where
  | line (s e : Point)
  | point (p : Point)
  | rect (tl br : Point)
  | tri (a b c : Point)
  | circle (c : Point) (r : Int)
  | pentagon (c : Point) (r : Int)
  | cube (ftl : Point) (size : Int)
deriving DecidableEq, Repr

/-- The canvas allocated by main.rs line 8: Image::blank(1000, 1000). -/
def mainCanvas : Image := Image.blank 1000 1000

/-- The output file of main.rs line 47: raster::save(&image, "image.png"). -/
def mainOutFile : String := "image.png"

/-- main (main.rs lines 7-48) as the ordered list of draw commands it issues.
The randomized constructions are parameters: rl the random Line's endpoints,
rp the random Point, rc i the i-th random Circle's center and radius (the
source loop for _ in 1..50 runs for i = 1,...,49), rpent and rcube the random
Pentagon and Cube. Fixed shapes carry their hardcoded source coordinates. -/
def mainScript (rl : Point × Point) (rp : Point) (rc : Nat → Point × Int)
    (rpent : Point × Int) (rcube : Point × Int) : List Cmd :=
  [Cmd.line rl.1 rl.2]
    ++ [Cmd.point rp]
    ++ [Cmd.rect ⟨150, 150⟩ ⟨50, 50⟩]
    ++ [Cmd.tri ⟨500, 500⟩ ⟨250, 700⟩ ⟨700, 800⟩]
    ++ ((List.range' 1 49).map fun i => Cmd.circle (rc i).1 (rc i).2)
    ++ [Cmd.pentagon ⟨300, 300⟩ 100]
    ++ [Cmd.pentagon rpent.1 rpent.2]
    ++ [Cmd.cube ⟨700, 200⟩ 120]
    ++ [Cmd.cube rcube.1 rcube.2]

/-- One test of the Bresenham loop body of Line::draw (geometrical_shapes.rs
lines 87-101), taken at the top of the loop after the plot of (x0, y0):
none means the loop breaks (either the combined endpoint check or one of the
two inner breaks), some gives the next (x0, y0, err). e2 = 2*err is computed
once; the first branch (e2 >= dy) may advance x, the second (e2 <= dx) may
advance y; both test the same e2, and the second branch tests the y0 that the
first branch left unchanged. -/
def lineStep (x1 y1 dx dy sx sy x0 y0 err : Int) : Option (Int × Int × Int) :=
  if x0 = x1 ∧ y0 = y1 then none
  else if dy ≤ 2 * err then
    if x0 = x1 then none
    else if 2 * err ≤ dx then
      if y0 = y1 then none
      else some (x0 + sx, y0 + sy, err + dy + dx)
    else some (x0 + sx, y0, err + dy)
  else if 2 * err ≤ dx then
    if y0 = y1 then none
    else some (x0, y0 + sy, err + dx)
  else some (x0, y0, err)

/-- The Bresenham loop of Line::draw, with fuel: returns the list of display
calls made (each iteration plots (x0, y0) before deciding whether to break)
and a flag that is true exactly when a break was reached within the fuel.
The lemmas below prove the flag true at fuel lineFuel for every input. -/
def lineLoop (x1 y1 dx dy sx sy : Int) : Nat → Int → Int → Int → List (Int × Int) × Bool
  | 0, _, _, _ => ([], false)
  | n + 1, x0, y0, err =>
    match lineStep x1 y1 dx dy sx sy x0 y0 err with
    | none => ([(x0, y0)], true)
    | some s =>
      let r := lineLoop x1 y1 dx dy sx sy n s.1 s.2.1 s.2.2
      ((x0, y0) :: r.1, r.2)

/-- dx = (x1 - x0).abs() of Line::draw. -/
def lineDx (s e : Point) : Int := ((e.x - s.x).natAbs : Int)

/-- dy = -(y1 - y0).abs() of Line::draw. -/
def lineDy (s e : Point) : Int := -((e.y - s.y).natAbs : Int)

/-- sx = if x0 < x1 then 1 else -1 of Line::draw. -/
def lineSx (s e : Point) : Int := if s.x < e.x then 1 else -1

/-- sy = if y0 < y1 then 1 else -1 of Line::draw. -/
def lineSy (s e : Point) : Int := if s.y < e.y then 1 else -1

/-- Fuel that dominates the iteration count of the loop (proved sufficient:
the completion flag of lineRun is true for every pair of endpoints). -/
def lineFuel (s e : Point) : Nat := max (e.x - s.x).natAbs (e.y - s.y).natAbs + 1

/-- The full run of the Line::draw loop from start s to end e: initial state
x0 = s.x, y0 = s.y, err = dx + dy. -/
def lineRun (s e : Point) : List (Int × Int) × Bool :=
  lineLoop e.x e.y (lineDx s e) (lineDy s e) (lineSx s e) (lineSy s e)
    (lineFuel s e) s.x s.y (lineDx s e + lineDy s e)

/-- The display-call sequence of Line::draw from s to e. -/
def Line.pixels (s e : Point) : List (Int × Int) := (lineRun s e).1

/-- 8-adjacency of two pixels: both coordinates change by at most 1 and at
least one of them changes (Chebyshev distance exactly 1). -/
def adj8 (u v : Int × Int) : Prop :=
  (v.1 - u.1).natAbs ≤ 1 ∧ (v.2 - u.2).natAbs ≤ 1 ∧
    ((v.1 - u.1).natAbs = 1 ∨ (v.2 - u.2).natAbs = 1)

instance (u v : Int × Int) : Decidable (adj8 u v) :=
  inferInstanceAs (Decidable ((v.1 - u.1).natAbs ≤ 1 ∧ (v.2 - u.2).natAbs ≤ 1 ∧
    ((v.1 - u.1).natAbs = 1 ∨ (v.2 - u.2).natAbs = 1)))

/-- An 8-connected pixel path from a to b: a nonempty pixel list starting at
a, ending at b, with consecutive pixels 8-adjacent. -/
def IsPath8 (l : List (Int × Int)) (a b : Int × Int) : Prop :=
  l.head? = some a ∧ l.getLast? = some b ∧ l.Chain' adj8

instance (l : List (Int × Int)) (a b : Int × Int) : Decidable (IsPath8 l a b) :=
  inferInstanceAs (Decidable (l.head? = some a ∧ l.getLast? = some b ∧ l.Chain' adj8))

/-- A minimal 8-connected pixel path: no 8-connected path between the same
endpoints visits fewer pixels. -/
def IsMinPath (l : List (Int × Int)) (a b : Int × Int) : Prop :=
  IsPath8 l a b ∧ ∀ l2, IsPath8 l2 a b → l.length ≤ l2.length

/-- Claim C1 as stated: there is a unique-up-to-pixel-set minimal 8-connected
path between the endpoints, and Line::draw plots exactly that pixel set,
each pixel once. -/
def lineClaimUnique (s e : Point) : Prop :=
  ∃ M : List (Int × Int),
    IsMinPath M (s.x, s.y) (e.x, e.y) ∧
    (∀ M2, IsMinPath M2 (s.x, s.y) (e.x, e.y) → M2.toFinset = M.toFinset) ∧
    (Line.pixels s e).toFinset = M.toFinset ∧
    (Line.pixels s e).Nodup

theorem getLast?_cons_of_some {α : Type} (a z : α) (l : List α) (h : l.getLast? = some z) :
    (a :: l).getLast? = some z := by
  cases l with
  | nil => simp at h
  | cons b t => rw [List.getLast?_cons_cons]; exact h

theorem range_map_shift (x0 d : Int) (L : Nat) :
    (List.range (L + 1)).map (fun (k : Nat) => x0 + d * (k : Int)) =
      x0 :: (List.range L).map (fun (k : Nat) => (x0 + d) + d * (k : Int)) := by
  rw [List.range_succ_eq_map, List.map_cons, List.map_map]
  refine congrArg₂ _ (by simp) ?_
  apply List.map_congr_left
  intro k _
  simp only [Function.comp_apply]
  push_cast
  ring

/-- Along an 8-connected chain the first coordinate moves by at most one per
step, so any 8-connected path from a to b has more pixels than the horizontal
distance between its endpoints. -/
theorem chain_fst_bound :
    ∀ (l : List (Int × Int)) (a b : Int × Int),
      l.head? = some a → l.getLast? = some b → l.Chain' adj8 →
      (b.1 - a.1).natAbs + 1 ≤ l.length := by
  intro l
  induction l with
  | nil => intro a b ha _ _; simp at ha
  | cons u t ih =>
    intro a b ha hb hc
    cases t with
    | nil =>
      have ha2 : u = a := by simpa using ha
      have hb2 : u = b := by simpa using hb
      subst ha2
      rw [← hb2]
      simp
    | cons v t2 =>
      have ha2 : u = a := by simpa using ha
      rw [List.getLast?_cons_cons] at hb
      rw [List.chain'_cons] at hc
      have h1 := ih v b rfl hb hc.2
      have h2 := hc.1
      unfold adj8 at h2
      subst ha2
      simp only [List.length_cons] at h1 ⊢
      omega

/-- The vertical analogue of chain_fst_bound. -/
theorem chain_snd_bound :
    ∀ (l : List (Int × Int)) (a b : Int × Int),
      l.head? = some a → l.getLast? = some b → l.Chain' adj8 →
      (b.2 - a.2).natAbs + 1 ≤ l.length := by
  intro l
  induction l with
  | nil => intro a b ha _ _; simp at ha
  | cons u t ih =>
    intro a b ha hb hc
    cases t with
    | nil =>
      have ha2 : u = a := by simpa using ha
      have hb2 : u = b := by simpa using hb
      subst ha2
      rw [← hb2]
      simp
    | cons v t2 =>
      have ha2 : u = a := by simpa using ha
      rw [List.getLast?_cons_cons] at hb
      rw [List.chain'_cons] at hc
      have h1 := ih v b rfl hb hc.2
      have h2 := hc.1
      unfold adj8 at h2
      subst ha2
      simp only [List.length_cons] at h1 ⊢
      omega

/-- Shape of a completed shallow-line loop run: the flag is set, the plotted
x-coordinates are the arithmetic progression x0, x0+sx, ..., the run starts
at (x0, y0), ends at (x1, y1), and every step advances x by sx while moving
y by 0 or sy. -/
def lineOutX (x1 y1 sx sy x0 y0 : Int) (len : Nat) (r : List (Int × Int) × Bool) : Prop :=
  r.2 = true ∧
  r.1.map Prod.fst = (List.range len).map (fun (k : Nat) => x0 + sx * (k : Int)) ∧
  r.1.head? = some (x0, y0) ∧
  r.1.getLast? = some (x1, y1) ∧
  r.1.Chain' (fun u v => v.1 = u.1 + sx ∧ (v.2 = u.2 ∨ v.2 = u.2 + sy))

/-- Shape of a completed steep-line loop run (the vertical mirror image). -/
def lineOutY (x1 y1 sx sy x0 y0 : Int) (len : Nat) (r : List (Int × Int) × Bool) : Prop :=
  r.2 = true ∧
  r.1.map Prod.snd = (List.range len).map (fun (k : Nat) => y0 + sy * (k : Int)) ∧
  r.1.head? = some (x0, y0) ∧
  r.1.getLast? = some (x1, y1) ∧
  r.1.Chain' (fun u v => v.2 = u.2 + sy ∧ (v.1 = u.1 ∨ v.1 = u.1 + sx))

/-- Invariant-based correctness of the Bresenham loop in the shallow case
Q ≤ P (P = dx, Q = -dy ≥ 0). The reachable loop-head states are indexed by
the step counts A (x-steps taken) and B (y-steps taken); the error term is
exactly (B+1)P - (A+1)Q and satisfies -Q ≤ 2 err, which makes the first
branch fire on every iteration, keeps both inner breaks unreachable before
the endpoint, and forces B = Q as soon as A = P. -/
theorem lineLoop_shallow (x1 y1 sx sy P Q : Int)
    (hsx : sx = 1 ∨ sx = -1) (hsy : sy = 1 ∨ sy = -1)
    (hQ0 : 0 ≤ Q) (hQP : Q ≤ P) :
    ∀ (n : Nat) (A B x0 y0 err : Int),
      0 ≤ A → A ≤ P → 0 ≤ B → B ≤ Q →
      x0 = x1 - sx * (P - A) →
      y0 = y1 - sy * (Q - B) →
      err = (B + 1) * P - (A + 1) * Q →
      -Q ≤ 2 * err →
      (P - A).toNat < n →
      lineOutX x1 y1 sx sy x0 y0 ((P - A).toNat + 1)
        (lineLoop x1 y1 P (-Q) sx sy n x0 y0 err) := by
  intro n
  induction n with
  | zero =>
    intro A B x0 y0 err _ _ _ _ _ _ _ _ hn
    omega
  | succ m ih =>
    intro A B x0 y0 err hA0 hAP hB0 hBQ hx hy herr hlow hn
    have hxiff : x0 = x1 ↔ A = P := by
      rcases hsx with h | h <;> rw [h] at hx <;> omega
    have hyiff : y0 = y1 ↔ B = Q := by
      rcases hsy with h | h <;> rw [h] at hy <;> omega
    by_cases hAeq : A = P
    · have hBeq : B = Q := by
        by_contra hne
        have hB1 : B + 1 ≤ Q := by omega
        have hmul : (B + 1) * P ≤ Q * P :=
          mul_le_mul_of_nonneg_right hB1 (by omega)
        rw [herr, hAeq] at hlow
        have hQle : Q ≤ 0 := by nlinarith [hlow, hmul]
        omega
      have hx1 : x0 = x1 := hxiff.mpr hAeq
      have hy1 : y0 = y1 := hyiff.mpr hBeq
      have hstep : lineStep x1 y1 P (-Q) sx sy x0 y0 err = none := by
        unfold lineStep
        rw [if_pos ⟨hx1, hy1⟩]
      have hloop : lineLoop x1 y1 P (-Q) sx sy (m + 1) x0 y0 err = ([(x0, y0)], true) := by
        simp only [lineLoop, hstep]
      have hlen : (P - A).toNat = 0 := by omega
      rw [hloop, hlen]
      refine ⟨rfl, by simp [List.range_succ], rfl, by simp [hx1, hy1], by simp⟩
    · have hAlt : A < P := by omega
      have hP1 : 1 ≤ P := by omega
      have hx1 : x0 ≠ x1 := fun h => hAeq (hxiff.mp h)
      have hcomb : ¬(x0 = x1 ∧ y0 = y1) := fun h => hx1 h.1
      by_cases hyf : 2 * err ≤ P
      · -- both x and y advance
        have hBlt : B < Q := by
          by_contra hge
          have hBeq : B = Q := by omega
          have hmul : (A + 1) * Q ≤ P * Q :=
            mul_le_mul_of_nonneg_right (by omega) hQ0
          rw [herr, hBeq] at hyf
          have hPle : P ≤ 0 := by nlinarith [hyf, hmul]
          omega
        have hy1 : y0 ≠ y1 := fun h => (by omega : ¬ B = Q) (hyiff.mp h)
        have hstep : lineStep x1 y1 P (-Q) sx sy x0 y0 err
            = some (x0 + sx, y0 + sy, err + -Q + P) := by
          unfold lineStep
          rw [if_neg hcomb, if_pos hlow, if_neg hx1, if_pos hyf, if_neg hy1]
        have hrec := ih (A + 1) (B + 1) (x0 + sx) (y0 + sy) (err + -Q + P)
          (by omega) (by omega) (by omega) (by omega)
          (by rw [hx]; ring) (by rw [hy]; ring) (by rw [herr]; ring)
          (by omega) (by omega)
        obtain ⟨hflag, hmap, hhead, hlast, hchain⟩ := hrec
        have hloop : lineLoop x1 y1 P (-Q) sx sy (m + 1) x0 y0 err
            = ((x0, y0) ::
                (lineLoop x1 y1 P (-Q) sx sy m (x0 + sx) (y0 + sy) (err + -Q + P)).1,
               (lineLoop x1 y1 P (-Q) sx sy m (x0 + sx) (y0 + sy) (err + -Q + P)).2) := by
          simp only [lineLoop, hstep]
        rw [hloop]
        refine ⟨hflag, ?_, rfl, ?_, ?_⟩
        · have hlen : (P - A).toNat + 1 = ((P - (A + 1)).toNat + 1) + 1 := by omega
          rw [hlen, range_map_shift]
          simp only [List.map_cons]
          rw [hmap]
        · exact getLast?_cons_of_some _ _ _ hlast
        · rw [List.chain'_cons']
          refine ⟨?_, hchain⟩
          intro h hh
          rw [hhead, Option.mem_def, Option.some.injEq] at hh
          subst hh
          exact ⟨rfl, Or.inr rfl⟩
      · -- only x advances
        have hstep : lineStep x1 y1 P (-Q) sx sy x0 y0 err
            = some (x0 + sx, y0, err + -Q) := by
          unfold lineStep
          rw [if_neg hcomb, if_pos hlow, if_neg hx1, if_neg hyf]
        have hrec := ih (A + 1) B (x0 + sx) y0 (err + -Q)
          (by omega) (by omega) hB0 hBQ
          (by rw [hx]; ring) hy (by rw [herr]; ring)
          (by omega) (by omega)
        obtain ⟨hflag, hmap, hhead, hlast, hchain⟩ := hrec
        have hloop : lineLoop x1 y1 P (-Q) sx sy (m + 1) x0 y0 err
            = ((x0, y0) ::
                (lineLoop x1 y1 P (-Q) sx sy m (x0 + sx) y0 (err + -Q)).1,
               (lineLoop x1 y1 P (-Q) sx sy m (x0 + sx) y0 (err + -Q)).2) := by
          simp only [lineLoop, hstep]
        rw [hloop]
        refine ⟨hflag, ?_, rfl, ?_, ?_⟩
        · have hlen : (P - A).toNat + 1 = ((P - (A + 1)).toNat + 1) + 1 := by omega
          rw [hlen, range_map_shift]
          simp only [List.map_cons]
          rw [hmap]
        · exact getLast?_cons_of_some _ _ _ hlast
        · rw [List.chain'_cons']
          refine ⟨?_, hchain⟩
          intro h hh
          rw [hhead, Option.mem_def, Option.some.injEq] at hh
          subst hh
          exact ⟨rfl, Or.inl rfl⟩

/-- Invariant-based correctness of the Bresenham loop in the steep case
P < Q. Here 2 err ≤ P holds at every loop head, which makes the second
branch fire on every iteration; the first branch fires exactly when
-Q ≤ 2 err, and both inner breaks stay unreachable before the endpoint. -/
theorem lineLoop_steep (x1 y1 sx sy P Q : Int)
    (hsx : sx = 1 ∨ sx = -1) (hsy : sy = 1 ∨ sy = -1)
    (hP0 : 0 ≤ P) (hPQ : P < Q) :
    ∀ (n : Nat) (A B x0 y0 err : Int),
      0 ≤ A → A ≤ P → 0 ≤ B → B ≤ Q →
      x0 = x1 - sx * (P - A) →
      y0 = y1 - sy * (Q - B) →
      err = (B + 1) * P - (A + 1) * Q →
      2 * err ≤ P →
      (Q - B).toNat < n →
      lineOutY x1 y1 sx sy x0 y0 ((Q - B).toNat + 1)
        (lineLoop x1 y1 P (-Q) sx sy n x0 y0 err) := by
  intro n
  induction n with
  | zero =>
    intro A B x0 y0 err _ _ _ _ _ _ _ _ hn
    omega
  | succ m ih =>
    intro A B x0 y0 err hA0 hAP hB0 hBQ hx hy herr hupp hn
    have hxiff : x0 = x1 ↔ A = P := by
      rcases hsx with h | h <;> rw [h] at hx <;> omega
    have hyiff : y0 = y1 ↔ B = Q := by
      rcases hsy with h | h <;> rw [h] at hy <;> omega
    have hQ1 : 1 ≤ Q := by omega
    by_cases hBeq : B = Q
    · have hAeq : A = P := by
        by_contra hne
        have hA1 : A + 1 ≤ P := by omega
        have hmul : (A + 1) * Q ≤ P * Q :=
          mul_le_mul_of_nonneg_right hA1 (by omega)
        rw [herr, hBeq] at hupp
        have hPle : P ≤ 0 := by nlinarith [hupp, hmul]
        omega
      have hx1 : x0 = x1 := hxiff.mpr hAeq
      have hy1 : y0 = y1 := hyiff.mpr hBeq
      have hstep : lineStep x1 y1 P (-Q) sx sy x0 y0 err = none := by
        unfold lineStep
        rw [if_pos ⟨hx1, hy1⟩]
      have hloop : lineLoop x1 y1 P (-Q) sx sy (m + 1) x0 y0 err = ([(x0, y0)], true) := by
        simp only [lineLoop, hstep]
      have hlen : (Q - B).toNat = 0 := by omega
      rw [hloop, hlen]
      refine ⟨rfl, by simp [List.range_succ], rfl, by simp [hx1, hy1], by simp⟩
    · have hBlt : B < Q := by omega
      have hy1 : y0 ≠ y1 := fun h => hBeq (hyiff.mp h)
      have hcomb : ¬(x0 = x1 ∧ y0 = y1) := fun h => hy1 h.2
      by_cases hxf : -Q ≤ 2 * err
      · -- both x and y advance
        have hAlt : A < P := by
          by_contra hge
          have hAeq : A = P := by omega
          have hmul : (B + 1) * P ≤ Q * P :=
            mul_le_mul_of_nonneg_right (by omega) hP0
          rw [herr, hAeq] at hxf
          have hQle : Q ≤ 0 := by nlinarith [hxf, hmul]
          omega
        have hx1 : x0 ≠ x1 := fun h => (by omega : ¬ A = P) (hxiff.mp h)
        have hstep : lineStep x1 y1 P (-Q) sx sy x0 y0 err
            = some (x0 + sx, y0 + sy, err + -Q + P) := by
          unfold lineStep
          rw [if_neg hcomb, if_pos hxf, if_neg hx1, if_pos hupp, if_neg hy1]
        have hrec := ih (A + 1) (B + 1) (x0 + sx) (y0 + sy) (err + -Q + P)
          (by omega) (by omega) (by omega) (by omega)
          (by rw [hx]; ring) (by rw [hy]; ring) (by rw [herr]; ring)
          (by omega) (by omega)
        obtain ⟨hflag, hmap, hhead, hlast, hchain⟩ := hrec
        have hloop : lineLoop x1 y1 P (-Q) sx sy (m + 1) x0 y0 err
            = ((x0, y0) ::
                (lineLoop x1 y1 P (-Q) sx sy m (x0 + sx) (y0 + sy) (err + -Q + P)).1,
               (lineLoop x1 y1 P (-Q) sx sy m (x0 + sx) (y0 + sy) (err + -Q + P)).2) := by
          simp only [lineLoop, hstep]
        rw [hloop]
        refine ⟨hflag, ?_, rfl, ?_, ?_⟩
        · have hlen : (Q - B).toNat + 1 = ((Q - (B + 1)).toNat + 1) + 1 := by omega
          rw [hlen, range_map_shift]
          simp only [List.map_cons]
          rw [hmap]
        · exact getLast?_cons_of_some _ _ _ hlast
        · rw [List.chain'_cons']
          refine ⟨?_, hchain⟩
          intro h hh
          rw [hhead, Option.mem_def, Option.some.injEq] at hh
          subst hh
          exact ⟨rfl, Or.inr rfl⟩
      · -- only y advances
        have hstep : lineStep x1 y1 P (-Q) sx sy x0 y0 err
            = some (x0, y0 + sy, err + P) := by
          unfold lineStep
          rw [if_neg hcomb, if_neg hxf, if_pos hupp, if_neg hy1]
        have hrec := ih A (B + 1) x0 (y0 + sy) (err + P)
          hA0 hAP (by omega) (by omega)
          hx (by rw [hy]; ring) (by rw [herr]; ring)
          (by omega) (by omega)
        obtain ⟨hflag, hmap, hhead, hlast, hchain⟩ := hrec
        have hloop : lineLoop x1 y1 P (-Q) sx sy (m + 1) x0 y0 err
            = ((x0, y0) ::
                (lineLoop x1 y1 P (-Q) sx sy m x0 (y0 + sy) (err + P)).1,
               (lineLoop x1 y1 P (-Q) sx sy m x0 (y0 + sy) (err + P)).2) := by
          simp only [lineLoop, hstep]
        rw [hloop]
        refine ⟨hflag, ?_, rfl, ?_, ?_⟩
        · have hlen : (Q - B).toNat + 1 = ((Q - (B + 1)).toNat + 1) + 1 := by omega
          rw [hlen, range_map_shift]
          simp only [List.map_cons]
          rw [hmap]
        · exact getLast?_cons_of_some _ _ _ hlast
        · rw [List.chain'_cons']
          refine ⟨?_, hchain⟩
          intro h hh
          rw [hhead, Option.mem_def, Option.some.injEq] at hh
          subst hh
          exact ⟨rfl, Or.inl rfl⟩

/-- Master specification of the Line::draw loop: for every pair of endpoints
the loop completes within lineFuel iterations, and the plotted pixels form a
minimal 8-connected path from start to end with no pixel repeated. -/
theorem lineRun_spec (s e : Point) :
    (lineRun s e).2 = true ∧
    IsMinPath (Line.pixels s e) (s.x, s.y) (e.x, e.y) ∧
    (Line.pixels s e).Nodup := by
  have hsx : lineSx s e = 1 ∨ lineSx s e = -1 := by unfold lineSx; split <;> simp
  have hsy : lineSy s e = 1 ∨ lineSy s e = -1 := by unfold lineSy; split <;> simp
  simp only [Line.pixels]
  rcases le_or_lt ((e.y - s.y).natAbs : Int) ((e.x - s.x).natAbs : Int) with hc | hc
  · -- shallow: the x-distance dominates
    have hmain := lineLoop_shallow e.x e.y (lineSx s e) (lineSy s e)
      ((e.x - s.x).natAbs : Int) ((e.y - s.y).natAbs : Int) hsx hsy
      (Int.natCast_nonneg _) hc
      (lineFuel s e) 0 0 s.x s.y (lineDx s e + lineDy s e)
      le_rfl (Int.natCast_nonneg _) le_rfl (Int.natCast_nonneg _)
      (by unfold lineSx; split <;> omega)
      (by unfold lineSy; split <;> omega)
      (by unfold lineDx lineDy; ring)
      (by unfold lineDx lineDy; omega)
      (by unfold lineFuel
          have := Nat.le_max_left (e.x - s.x).natAbs (e.y - s.y).natAbs
          omega)
    have hrun : lineRun s e
        = lineLoop e.x e.y ((e.x - s.x).natAbs : Int) (-((e.y - s.y).natAbs : Int))
            (lineSx s e) (lineSy s e) (lineFuel s e) s.x s.y
            (lineDx s e + lineDy s e) := rfl
    rw [← hrun] at hmain
    obtain ⟨hflag, hmap, hhead, hlast, hchain⟩ := hmain
    have hlen : (lineRun s e).1.length = (e.x - s.x).natAbs + 1 := by
      have h1 : (lineRun s e).1.length = ((lineRun s e).1.map Prod.fst).length :=
        (List.length_map _ _).symm
      rw [h1, hmap, List.length_map, List.length_range]
      omega
    have hadj : (lineRun s e).1.Chain' adj8 := by
      refine List.Chain'.imp ?_ hchain
      intro u v huv
      obtain ⟨h1, h2⟩ := huv
      unfold adj8
      rcases hsx with ha | ha <;> rcases hsy with hb | hb <;> rw [ha] at h1 <;>
        rcases h2 with h2 | h2 <;> (try rw [hb] at h2) <;>
        exact ⟨by omega, by omega, Or.inl (by omega)⟩
    have hinj : Function.Injective (fun (k : Nat) => s.x + lineSx s e * (k : Int)) := by
      intro a b hab
      simp only at hab
      rcases hsx with h | h <;> rw [h] at hab <;> omega
    have hnd : ((lineRun s e).1.map Prod.fst).Nodup := by
      rw [hmap]
      exact List.Nodup.map hinj (List.nodup_range _)
    refine ⟨hflag, ⟨⟨hhead, hlast, hadj⟩, ?_⟩, List.Nodup.of_map _ hnd⟩
    intro l2 hl2
    have hb := chain_fst_bound l2 (s.x, s.y) (e.x, e.y) hl2.1 hl2.2.1 hl2.2.2
    have hb2 : (e.x - s.x).natAbs + 1 ≤ l2.length := by simpa using hb
    omega
  · -- steep: the y-distance dominates
    have hmain := lineLoop_steep e.x e.y (lineSx s e) (lineSy s e)
      ((e.x - s.x).natAbs : Int) ((e.y - s.y).natAbs : Int) hsx hsy
      (Int.natCast_nonneg _) hc
      (lineFuel s e) 0 0 s.x s.y (lineDx s e + lineDy s e)
      le_rfl (Int.natCast_nonneg _) le_rfl (Int.natCast_nonneg _)
      (by unfold lineSx; split <;> omega)
      (by unfold lineSy; split <;> omega)
      (by unfold lineDx lineDy; ring)
      (by unfold lineDx lineDy; omega)
      (by unfold lineFuel
          have := Nat.le_max_right (e.x - s.x).natAbs (e.y - s.y).natAbs
          omega)
    have hrun : lineRun s e
        = lineLoop e.x e.y ((e.x - s.x).natAbs : Int) (-((e.y - s.y).natAbs : Int))
            (lineSx s e) (lineSy s e) (lineFuel s e) s.x s.y
            (lineDx s e + lineDy s e) := rfl
    rw [← hrun] at hmain
    obtain ⟨hflag, hmap, hhead, hlast, hchain⟩ := hmain
    have hlen : (lineRun s e).1.length = (e.y - s.y).natAbs + 1 := by
      have h1 : (lineRun s e).1.length = ((lineRun s e).1.map Prod.snd).length :=
        (List.length_map _ _).symm
      rw [h1, hmap, List.length_map, List.length_range]
      omega
    have hadj : (lineRun s e).1.Chain' adj8 := by
      refine List.Chain'.imp ?_ hchain
      intro u v huv
      obtain ⟨h1, h2⟩ := huv
      unfold adj8
      rcases hsx with ha | ha <;> rcases hsy with hb | hb <;> rw [hb] at h1 <;>
        rcases h2 with h2 | h2 <;> (try rw [ha] at h2) <;>
        exact ⟨by omega, by omega, Or.inr (by omega)⟩
    have hinj : Function.Injective (fun (k : Nat) => s.y + lineSy s e * (k : Int)) := by
      intro a b hab
      simp only at hab
      rcases hsy with h | h <;> rw [h] at hab <;> omega
    have hnd : ((lineRun s e).1.map Prod.snd).Nodup := by
      rw [hmap]
      exact List.Nodup.map hinj (List.nodup_range _)
    refine ⟨hflag, ⟨⟨hhead, hlast, hadj⟩, ?_⟩, List.Nodup.of_map _ hnd⟩
    intro l2 hl2
    have hb := chain_snd_bound l2 (s.x, s.y) (e.x, e.y) hl2.1 hl2.2.1 hl2.2.2
    have hb2 : (e.y - s.y).natAbs + 1 ≤ l2.length := by simpa using hb
    omega

/-- The degenerate run start == end plots exactly the one shared pixel. -/
theorem line_pixels_self (s : Point) : Line.pixels s s = [(s.x, s.y)] := by
  unfold Line.pixels lineRun lineFuel lineDx lineDy lineSx lineSy
  simp [lineLoop, lineStep]

/-- A concrete small canvas used by the closed witness theorems. -/
def testImage : Image := { width := 3, height := 3, pixels := fun _ _ => ⟨0, 0, 0, 255⟩ }

/-- Counterexample to claim C4 as stated: with front_top_left (0,0), size 10
and depth_factor 1.0, the source computes depth = (10.0 * 1.0) as i32 = 10,
which is > 0, yet the corner ftr = (10, 0) coincides with the corner
bbl = (0 + 10, 0 + 10 - 10) = (10, 0): the 8 corners are not pairwise
distinct even though depth > 0. -/
theorem cube_corners_distinct_refuted :
    0 < (10 : Int) ∧ ¬ (cubeCorners ⟨0, 0⟩ 10 10).Pairwise (fun p q => p ≠ q) := by
  decide

/-- Claim C4 (amended): Cube::draw emits exactly the 12 listed line segments
for every front_top_left, size and depth, and the 8 corner points are
pairwise distinct whenever depth > 0 and size is none of 0, depth, -depth
(for size = depth the corners ftr and bbl coincide, for size = -depth the
corners fbl and btr coincide, and for size = 0 each face degenerates; with
any depth_factor in [0.0, 1.0) and size > 0 these exclusions hold
automatically, since then 0 ≤ depth < size). -/
theorem cube_draw_twelve_segments (ftl : Point) (size depth : Int) :
    (cubeLines ftl size depth).length = 12 ∧
    cubeLines ftl size depth =
      [(⟨ftl.x, ftl.y⟩, ⟨ftl.x + size, ftl.y⟩),
       (⟨ftl.x + size, ftl.y⟩, ⟨ftl.x + size, ftl.y + size⟩),
       (⟨ftl.x + size, ftl.y + size⟩, ⟨ftl.x, ftl.y + size⟩),
       (⟨ftl.x, ftl.y + size⟩, ⟨ftl.x, ftl.y⟩),
       (⟨ftl.x + depth, ftl.y - depth⟩, ⟨ftl.x + size + depth, ftl.y - depth⟩),
       (⟨ftl.x + size + depth, ftl.y - depth⟩, ⟨ftl.x + size + depth, ftl.y + size - depth⟩),
       (⟨ftl.x + size + depth, ftl.y + size - depth⟩, ⟨ftl.x + depth, ftl.y + size - depth⟩),
       (⟨ftl.x + depth, ftl.y + size - depth⟩, ⟨ftl.x + depth, ftl.y - depth⟩),
       (⟨ftl.x, ftl.y⟩, ⟨ftl.x + depth, ftl.y - depth⟩),
       (⟨ftl.x + size, ftl.y⟩, ⟨ftl.x + size + depth, ftl.y - depth⟩),
       (⟨ftl.x, ftl.y + size⟩, ⟨ftl.x + depth, ftl.y + size - depth⟩),
       (⟨ftl.x + size, ftl.y + size⟩, ⟨ftl.x + size + depth, ftl.y + size - depth⟩)] ∧
    (0 < depth → size ≠ 0 → size ≠ depth → size ≠ -depth →
      (cubeCorners ftl size depth).Pairwise (fun p q => p ≠ q)) := by
  obtain ⟨fx, fy⟩ := ftl
  refine ⟨rfl, by simp [cubeLines], ?_⟩
  intro hd h0 hsd hsnd
  simp only [cubeCorners]
  rw [List.pairwise_iff_get]
  intro i j hij
  fin_cases i <;> fin_cases j <;>
    first
      | exact absurd hij (by decide)
      | (simp only [List.get, Point.mk.injEq, ne_eq, not_and]; omega)

/-- Witness for C4 at front_top_left (0,0), size 10, depth 5 (the source
default depth_factor 0.5 gives (10.0 * 0.5) as i32 = 5). -/
theorem cube_draw_twelve_segments_witness :
    (cubeCorners ⟨0, 0⟩ 10 5).Pairwise (fun p q => p ≠ q) :=
  (cube_draw_twelve_segments ⟨0, 0⟩ 10 5).2.2 (by decide) (by decide) (by decide) (by decide)

/-- Claim C2: display(x, y, color) sets pixel (x, y) to color when
0 ≤ x < width and 0 ≤ y < height, and otherwise is a no-op that leaves the
entire canvas unmodified (silent clip, no error). -/
theorem display_in_bounds_sets_out_of_bounds_noop (img : Image) (x y : Int) (c : Color) :
    (0 ≤ x ∧ x < img.width ∧ 0 ≤ y ∧ y < img.height →
      (img.display x y c).pixels x y = c ∧
      (∀ a b : Int, ¬(a = x ∧ b = y) → (img.display x y c).pixels a b = img.pixels a b) ∧
      (img.display x y c).width = img.width ∧
      (img.display x y c).height = img.height) ∧
    (¬(0 ≤ x ∧ x < img.width ∧ 0 ≤ y ∧ y < img.height) →
      img.display x y c = img) := by
  constructor
  · intro h
    refine ⟨?_, ?_, ?_, ?_⟩
    · simp [Image.display, Image.setPixel, h]
    · intro a b hab
      simp [Image.display, Image.setPixel, h, hab]
    · simp [Image.display, Image.setPixel, h]
    · simp [Image.display, Image.setPixel, h]
  · intro h
    simp [Image.display, h]

/-- Witness for C2 at concrete inputs: an in-bounds write lands, an
out-of-bounds write leaves the canvas untouched. -/
theorem display_spec_witness :
    (testImage.display 1 2 ⟨9, 9, 9, 255⟩).pixels 1 2 = ⟨9, 9, 9, 255⟩ ∧
    testImage.display 5 0 ⟨9, 9, 9, 255⟩ = testImage :=
  ⟨((display_in_bounds_sets_out_of_bounds_noop testImage 1 2 ⟨9, 9, 9, 255⟩).1
      (by refine ⟨by norm_num, ?_, by norm_num, ?_⟩ <;> norm_num [testImage])).1,
   (display_in_bounds_sets_out_of_bounds_noop testImage 5 0 ⟨9, 9, 9, 255⟩).2
      (by norm_num [testImage])⟩

/-- Claim C8: every shape color operation yields a = 255 and r, g, b each in
[0, 255) — the source samples gen_range(0..255), whose upper bound is
exclusive, so 255 itself is never produced. Stated for Point::color and
Line::color; the other five impls have the identical body. -/
theorem shape_color_opaque_range (s1 s2 s3 : Int) :
    (Point.color s1 s2 s3).a = 255 ∧
    0 ≤ (Point.color s1 s2 s3).r ∧ (Point.color s1 s2 s3).r < 255 ∧
    0 ≤ (Point.color s1 s2 s3).g ∧ (Point.color s1 s2 s3).g < 255 ∧
    0 ≤ (Point.color s1 s2 s3).b ∧ (Point.color s1 s2 s3).b < 255 ∧
    (Line.color s1 s2 s3).a = 255 ∧
    0 ≤ (Line.color s1 s2 s3).r ∧ (Line.color s1 s2 s3).r < 255 ∧
    0 ≤ (Line.color s1 s2 s3).g ∧ (Line.color s1 s2 s3).g < 255 ∧
    0 ≤ (Line.color s1 s2 s3).b ∧ (Line.color s1 s2 s3).b < 255 := by
  unfold Point.color Line.color genRange
  simp only []
  norm_num
  omega

/-- Claim C6: Rectangle::draw derives top_right = (br.x, tl.y) and
bottom_left = (tl.x, br.y) and draws the closed four-edge path
tl → tr → br → bl → tl for any corner order; with tl = (150,150) and
br = (50,50) the corners of the closed path are (150,150), (50,150),
(50,50), (150,50). -/
theorem rectangle_draw_closed_path (tl br : Point) :
    rectLines tl br =
      [(tl, ⟨br.x, tl.y⟩), (⟨br.x, tl.y⟩, br), (br, ⟨tl.x, br.y⟩), (⟨tl.x, br.y⟩, tl)] ∧
    rectLines ⟨150, 150⟩ ⟨50, 50⟩ =
      [(⟨150, 150⟩, ⟨50, 150⟩), (⟨50, 150⟩, ⟨50, 50⟩),
       (⟨50, 50⟩, ⟨150, 50⟩), (⟨150, 50⟩, ⟨150, 150⟩)] :=
  ⟨rfl, by decide⟩

/-- Claim C10: Circle::draw with a negative radius plots nothing: the loop
guard x ≥ y fails immediately (x = radius < 0 = y), so no display call is
made and the canvas is left unmodified. -/
theorem circle_negative_radius_noop (c : Point) (r : Int) (img : Image) (col : Color)
    (h : r < 0) :
    circlePixels c r = [] ∧ Circle.drawImage img c r col = img := by
  have h1 : circlePixels c r = [] := by
    show circleLoopF (r.toNat + 2) c.x c.y r 0 0 = []
    have h2 : r.toNat + 2 = (r.toNat + 1) + 1 := by omega
    rw [h2]
    show (if (0 : Int) ≤ r then _ else ([] : List (Int × Int))) = []
    rw [if_neg (by omega)]
  exact ⟨h1, by simp [Circle.drawImage, h1]⟩

/-- Witness for C10 at radius -1 on a concrete canvas. -/
theorem circle_negative_radius_noop_witness :
    circlePixels ⟨4, 4⟩ (-1) = [] ∧
    Circle.drawImage testImage ⟨4, 4⟩ (-1) ⟨1, 2, 3, 255⟩ = testImage :=
  circle_negative_radius_noop ⟨4, 4⟩ (-1) testImage ⟨1, 2, 3, 255⟩ (by decide)

/-- Claim C7: the pixel set of Circle::draw with center (0,0) and radius 5 is
invariant under the eight symmetry maps (x,y) ↦ (y,x), (-y,x), (-x,y),
(-x,-y), (-y,-x), (y,-x), (x,-y) (and the identity). -/
theorem circle_radius5_symmetry :
    ((circlePixels ⟨0, 0⟩ 5).toFinset.image fun p => (p.2, p.1)) =
        (circlePixels ⟨0, 0⟩ 5).toFinset ∧
    ((circlePixels ⟨0, 0⟩ 5).toFinset.image fun p => (-p.2, p.1)) =
        (circlePixels ⟨0, 0⟩ 5).toFinset ∧
    ((circlePixels ⟨0, 0⟩ 5).toFinset.image fun p => (-p.1, p.2)) =
        (circlePixels ⟨0, 0⟩ 5).toFinset ∧
    ((circlePixels ⟨0, 0⟩ 5).toFinset.image fun p => (-p.1, -p.2)) =
        (circlePixels ⟨0, 0⟩ 5).toFinset ∧
    ((circlePixels ⟨0, 0⟩ 5).toFinset.image fun p => (-p.2, -p.1)) =
        (circlePixels ⟨0, 0⟩ 5).toFinset ∧
    ((circlePixels ⟨0, 0⟩ 5).toFinset.image fun p => (p.2, -p.1)) =
        (circlePixels ⟨0, 0⟩ 5).toFinset ∧
    ((circlePixels ⟨0, 0⟩ 5).toFinset.image fun p => (p.1, -p.2)) =
        (circlePixels ⟨0, 0⟩ 5).toFinset := by
  decide

/-- Claim C3: main draws, in order, one random Line, one random Point, the
fixed Rectangle between (150,150) and (50,50), the fixed Triangle between
(500,500), (250,700), (700,800), 49 random Circles, the fixed Pentagon at
(300,300) radius 100, one random Pentagon, the fixed Cube at (700,200) size
120, one random Cube — all on the single 1000 x 1000 canvas — and then saves
the canvas as "image.png". -/
theorem main_composition_sequence (rl : Point × Point) (rp : Point)
    (rc : Nat → Point × Int) (rpent : Point × Int) (rcube : Point × Int) :
    mainScript rl rp rc rpent rcube =
      [Cmd.line rl.1 rl.2, Cmd.point rp,
       Cmd.rect ⟨150, 150⟩ ⟨50, 50⟩,
       Cmd.tri ⟨500, 500⟩ ⟨250, 700⟩ ⟨700, 800⟩]
      ++ ((List.range' 1 49).map fun i => Cmd.circle (rc i).1 (rc i).2)
      ++ [Cmd.pentagon ⟨300, 300⟩ 100, Cmd.pentagon rpent.1 rpent.2,
          Cmd.cube ⟨700, 200⟩ 120, Cmd.cube rcube.1 rcube.2] ∧
    ((List.range' 1 49).map fun i => Cmd.circle (rc i).1 (rc i).2).length = 49 ∧
    (mainScript rl rp rc rpent rcube).length = 57 ∧
    mainCanvas.width = 1000 ∧ mainCanvas.height = 1000 ∧
    mainOutFile = "image.png" := by
  refine ⟨by simp [mainScript], by simp, ?_, by decide, by decide, rfl⟩
  simp [mainScript]

/-- Counterexample to claim C1 as stated: between (0,0) and (2,1) the minimal
8-connected pixel path is not unique — [(0,0),(1,0),(2,1)] and
[(0,0),(1,1),(2,1)] are both 3-pixel 8-connected paths, and 3 pixels is the
minimum, so no path is "the unique minimal path" and no pixel set can equal
the pixel set of every minimal path. -/
theorem line_unique_minimal_refuted : ¬ lineClaimUnique ⟨0, 0⟩ ⟨2, 1⟩ := by
  rintro ⟨M, hM, huniq, hpix, hnd⟩
  have hmin1 : IsMinPath [((0 : Int), (0 : Int)), (1, 0), (2, 1)] (0, 0) (2, 1) := by
    refine ⟨⟨rfl, rfl, ?_⟩, ?_⟩
    · rw [List.chain'_cons]
      refine ⟨by decide, ?_⟩
      rw [List.chain'_cons]
      exact ⟨by decide, List.chain'_singleton _⟩
    intro l2 hl2
    have hb := chain_fst_bound l2 (0, 0) (2, 1) hl2.1 hl2.2.1 hl2.2.2
    simpa using hb
  have hmin2 : IsMinPath [((0 : Int), (0 : Int)), (1, 1), (2, 1)] (0, 0) (2, 1) := by
    refine ⟨⟨rfl, rfl, ?_⟩, ?_⟩
    · rw [List.chain'_cons]
      refine ⟨by decide, ?_⟩
      rw [List.chain'_cons]
      exact ⟨by decide, List.chain'_singleton _⟩
    intro l2 hl2
    have hb := chain_fst_bound l2 (0, 0) (2, 1) hl2.1 hl2.2.1 hl2.2.2
    simpa using hb
  have h1 := huniq _ hmin1
  have h2 := huniq _ hmin2
  have hne : ¬ ([((0 : Int), (0 : Int)), (1, 0), (2, 1)].toFinset
      = [((0 : Int), (0 : Int)), (1, 1), (2, 1)].toFinset) := by decide
  exact hne (h1.trans h2.symm)

/-- Claim C1 (amended): for every pair of endpoints, Line::draw plots a
minimal 8-connected pixel path between the two endpoints — minimal paths are
not unique in general — inclusive of both endpoints, each pixel once; in
particular drawing from (0,0) to (5,0) plots exactly (0,0)..(5,0) in order,
and when start == end exactly the one shared pixel is plotted. -/
theorem line_pixels_minimal_path (s e : Point) :
    IsMinPath (Line.pixels s e) (s.x, s.y) (e.x, e.y) ∧
    (Line.pixels s e).Nodup ∧
    Line.pixels ⟨0, 0⟩ ⟨5, 0⟩ = [(0, 0), (1, 0), (2, 0), (3, 0), (4, 0), (5, 0)] ∧
    Line.pixels s s = [(s.x, s.y)] :=
  ⟨(lineRun_spec s e).2.1, (lineRun_spec s e).2.2, by decide, line_pixels_self s⟩

/-- Witness for C1 at concrete endpoints. -/
theorem line_pixels_minimal_path_witness :
    IsMinPath (Line.pixels ⟨0, 0⟩ ⟨3, 2⟩) (0, 0) (3, 2) ∧
    Line.pixels ⟨4, 7⟩ ⟨4, 7⟩ = [(4, 7)] :=
  ⟨(line_pixels_minimal_path ⟨0, 0⟩ ⟨3, 2⟩).1,
   (line_pixels_minimal_path ⟨4, 7⟩ ⟨0, 0⟩).2.2.2⟩

/-- Claim C9: the Bresenham loop of Line::draw terminates for every pair of
endpoints (any integer coordinates): the loop reaches a break within a finite
number of iterations — lineFuel s e iterations suffice. -/
theorem line_draw_terminates (s e : Point) :
    ∃ n : Nat,
      (lineLoop e.x e.y (lineDx s e) (lineDy s e) (lineSx s e) (lineSy s e)
        n s.x s.y (lineDx s e + lineDy s e)).2 = true :=
  ⟨lineFuel s e, (lineRun_spec s e).1⟩
